import Mathlib

/-!
Verification of the label-parsing core of `microdot`
(`src/microdot-core/src/labels.rs`).

Strings are modelled as `List Char`.  Rust operates on UTF-8 byte
strings, but every operation the code performs (regex scanning over
ASCII character classes, `str::trim`, `ends_with`, slicing at the
start of a matched `#` or after it, `String` ordering) respects
character boundaries and agrees with the code-point level model:
UTF-8 byte order coincides with code-point order, and every slice the
code takes starts at an ASCII character.

The `regex` crate returns non-overlapping leftmost matches, each as
long as possible, which for the two patterns used here
(`#[A-Za-z][A-Za-z0-9_-]*` and `\$([A-Za-z][A-Za-z0-9_-]*)=([A-Za-z0-9_-]+)`)
is exactly the greedy left-to-right scan implemented below.

`HashSet` iteration order is unspecified; the definitions below use a
canonical order (sorted for hashtags, first-occurrence `dedup` for
variables) and the determinism theorem proves that the parts of the
result the specification fixes are independent of the orders chosen.
-/

namespace Microdot

/-- The characters for which Rust `char::is_whitespace` (used by
`str::trim`) returns true: the Unicode `White_Space` code points. -/
def isWs (c : Char) : Bool :=
  c == ' ' || c == '\t' || c == '\n' || c == '\u000B' || c == '\u000C' || c == '\r' ||
  c == '\u0085' || c == ' ' || c == ' ' || c == ' ' || c == ' ' ||
  c == ' ' || c == ' ' || c == ' ' || c == ' ' || c == ' ' ||
  c == ' ' || c == ' ' || c == ' ' || c == ' ' || c == ' ' ||
  c == ' ' || c == ' ' || c == ' ' || c == '　'

/-- The regex character class `[A-Za-z0-9_-]` shared by the hashtag
pattern (after its first letter) and the variable name/value classes.
`Char.isAlpha`/`Char.isDigit` are exactly `[A-Za-z]`/`[0-9]`. -/
def isTagChar (c : Char) : Bool :=
  c.isAlpha || c.isDigit || c == '_' || c == '-'

theorem ws_not_tag {c : Char} (h : isWs c = true) : isTagChar c = false := by
  simp only [isWs, Bool.or_eq_true, beq_iff_eq, or_assoc] at h
  rcases h with h|h|h|h|h|h|h|h|h|h|h|h|h|h|h|h|h|h|h|h|h|h|h|h|h <;> subst h <;> decide

theorem tag_not_ws {c : Char} (h : isTagChar c = true) : isWs c = false := by
  cases hw : isWs c with
  | false => rfl
  | true => rw [ws_not_tag hw] at h; exact absurd h (by simp)

theorem alpha_tagChar {c : Char} (h : c.isAlpha = true) : isTagChar c = true := by
  simp [isTagChar, h]

theorem hash_not_ws : isWs '#' = false := by decide

theorem hash_not_tag : isTagChar '#' = false := by decide

/-! ## The hashtag scanner

`Regex::new("#[A-Za-z][A-Za-z0-9_-]*")` with `captures_iter`
(`src/microdot-core/src/labels.rs`, `extract_hashtags`): collect every
non-overlapping leftmost-greedy match. -/

/-- Fuelled version of the hashtag scanner; each step consumes at
least one character and one unit of fuel, so fuel `l.length` is always
enough (`scanTagsF_congr`).  The fuel only makes the recursion
structural so that concrete inputs evaluate by `rfl`/`decide`. -/
def scanTagsF : Nat → List Char → List (List Char)
  | 0, _ => []
  | _ + 1, [] => []
  | n + 1, a :: rest =>
    if a = '#' then
      match rest with
      | [] => []
      | c :: cs =>
        if c.isAlpha then
          (a :: c :: cs.takeWhile isTagChar) :: scanTagsF n (cs.dropWhile isTagChar)
        else
          scanTagsF n (c :: cs)
    else scanTagsF n rest

/-- All substrings of `l` matched by `#[A-Za-z][A-Za-z0-9_-]*`, in
order of occurrence (with repetitions: the `HashSet` dedup happens in
`hashSetL`). -/
def scanTags (l : List Char) : List (List Char) := scanTagsF l.length l

theorem scanTagsF_nil : ∀ n, scanTagsF n [] = []
  | 0 => rfl
  | _ + 1 => rfl

theorem scanTagsF_congr : ∀ (l : List Char) (m n : Nat), l.length ≤ m → l.length ≤ n →
    scanTagsF m l = scanTagsF n l
  | [], _, _, _, _ => by rw [scanTagsF_nil, scanTagsF_nil]
  | _ :: _, 0, _, hm, _ => by simp at hm
  | _ :: _, _ + 1, 0, _, hn => by simp at hn
  | [a], m + 1, n + 1, _, _ => by
    by_cases ha : a = '#' <;> simp [scanTagsF, ha, scanTagsF_nil]
  | a :: c :: cs, m + 1, n + 1, hm, hn => by
    simp only [List.length_cons] at hm hn
    have hd := (List.dropWhile_suffix (l := cs) isTagChar).length_le
    by_cases ha : a = '#'
    · by_cases hc : c.isAlpha = true
      · simp only [scanTagsF, if_pos ha, if_pos hc]
        rw [scanTagsF_congr (cs.dropWhile isTagChar) m n (by omega) (by omega)]
      · simp only [scanTagsF, if_pos ha, if_neg hc]
        exact scanTagsF_congr (c :: cs) m n (by simp only [List.length_cons]; omega)
          (by simp only [List.length_cons]; omega)
    · simp only [scanTagsF, if_neg ha]
      exact scanTagsF_congr (c :: cs) m n (by simp only [List.length_cons]; omega)
        (by simp only [List.length_cons]; omega)
termination_by l => l.length
decreasing_by
  · have := (List.dropWhile_suffix (l := cs) isTagChar).length_le
    simp only [List.length_cons]
    omega
  · simp [List.length_cons]
  · simp [List.length_cons]

theorem scanTags_nil : scanTags [] = [] := rfl

theorem scanTags_not_hash {a : Char} {rest : List Char} (h : ¬ a = '#') :
    scanTags (a :: rest) = scanTags rest := by
  show scanTagsF (rest.length + 1) (a :: rest) = scanTagsF rest.length rest
  simp only [scanTagsF, if_neg h]

theorem scanTags_hash_nil : scanTags ['#'] = [] := rfl

theorem scanTags_hash_alpha {c : Char} {cs : List Char} (h : c.isAlpha = true) :
    scanTags ('#' :: c :: cs) =
      ('#' :: c :: cs.takeWhile isTagChar) :: scanTags (cs.dropWhile isTagChar) := by
  have hd := (List.dropWhile_suffix (l := cs) isTagChar).length_le
  show scanTagsF (cs.length + 1 + 1) ('#' :: c :: cs) = _
  simp only [scanTags]
  simp [scanTagsF, h]
  exact scanTagsF_congr (cs.dropWhile isTagChar) (cs.length + 1)
    (cs.dropWhile isTagChar).length (by omega) (by omega)

theorem scanTags_hash_not_alpha {c : Char} {cs : List Char} (h : ¬ c.isAlpha = true) :
    scanTags ('#' :: c :: cs) = scanTags (c :: cs) := by
  show scanTagsF (cs.length + 1 + 1) ('#' :: c :: cs) = scanTagsF (cs.length + 1) (c :: cs)
  simp [scanTagsF, h]

/-- The `HashSet<String>` of matched hashtags, represented canonically
as the duplicate-free list of matches. -/
def hashSetL (l : List Char) : List (List Char) := (scanTags l).dedup

/-- Lexicographic order on `List Char` by code point; this is exactly
the `Ord` used by Rust's `Vec::<String>::sort` (UTF-8 byte order
coincides with code-point order). -/
def lexLe : List Char → List Char → Bool
  | [], _ => true
  | _ :: _, [] => false
  | a :: as, b :: bs =>
    if a.toNat < b.toNat then true
    else if b.toNat < a.toNat then false
    else lexLe as bs

def lexLeP (a b : List Char) : Prop := lexLe a b = true

instance : DecidableRel lexLeP := fun a b => inferInstanceAs (Decidable (lexLe a b = true))

theorem lexLe_refl : ∀ a, lexLe a a = true
  | [] => rfl
  | a :: as => by simp [lexLe, lexLe_refl as]

theorem lexLe_total : ∀ a b, lexLe a b = true ∨ lexLe b a = true
  | [], _ => Or.inl rfl
  | _ :: _, [] => Or.inr rfl
  | a :: as, b :: bs => by
    rcases Nat.lt_trichotomy a.toNat b.toNat with h | h | h
    · left; simp [lexLe, h]
    · rcases lexLe_total as bs with ih | ih
      · left; simp [lexLe, h, ih]
      · right; simp [lexLe, h.symm, ih]
    · right; simp [lexLe, h]

theorem lexLe_trans : ∀ a b c, lexLe a b = true → lexLe b c = true → lexLe a c = true
  | [], _, _, _, _ => rfl
  | _ :: _, [], _, h, _ => by simp [lexLe] at h
  | _ :: _, _ :: _, [], _, h => by simp [lexLe] at h
  | a :: as, b :: bs, c :: cs, hab, hbc => by
    simp only [lexLe] at hab hbc ⊢
    rcases Nat.lt_trichotomy a.toNat b.toNat with h1 | h1 | h1
    · rcases Nat.lt_trichotomy b.toNat c.toNat with h2 | h2 | h2
      · rw [if_pos (by omega)]
      · rw [if_pos (by omega)]
      · rw [if_neg (by omega), if_pos (by omega)] at hbc
        exact absurd hbc (by simp)
    · rcases Nat.lt_trichotomy b.toNat c.toNat with h2 | h2 | h2
      · rw [if_pos (by omega)]
      · rw [if_neg (by omega), if_neg (by omega)] at hab
        rw [if_neg (by omega), if_neg (by omega)] at hbc
        rw [if_neg (by omega), if_neg (by omega)]
        exact lexLe_trans as bs cs hab hbc
      · rw [if_neg (by omega), if_pos (by omega)] at hbc
        exact absurd hbc (by simp)
    · rw [if_neg (by omega), if_pos (by omega)] at hab
      exact absurd hab (by simp)

instance : IsTotal (List Char) lexLeP := ⟨fun a b => lexLe_total a b⟩

instance : IsTrans (List Char) lexLeP := ⟨fun a b c => lexLe_trans a b c⟩

/-- `hashes.sort()`: the hashtag set in sorted order. -/
def sortedHashes (l : List Char) : List (List Char) :=
  List.insertionSort lexLeP (hashSetL l)

/-! ## Trimming (`str::trim`) -/

def trimL (l : List Char) : List Char := l.dropWhile isWs

def trimR (l : List Char) : List Char := (l.reverse.dropWhile isWs).reverse

/-- `str::trim`: remove leading and trailing whitespace. -/
def trimBoth (l : List Char) : List Char := trimR (trimL l)

/-! ## The trailing-hashtag trim loop -/

/-- One step of the `for hash in hashes.iter()` body: if the working
label ends with `hash`, cut that suffix off and record that work was
done. -/
def stripStep (acc : List Char × Bool) (h : List Char) : List Char × Bool :=
  if h.isSuffixOf acc.1 then (acc.1.take (acc.1.length - h.length), true) else acc

/-- One iteration of the `while work_done` loop: trim, then try to
strip each hashtag of `hashes` (in the given iteration order) off the
end of the working label.  Returns the new label and `work_done`. -/
def pass (hashes : List (List Char)) (w : List Char) : List Char × Bool :=
  hashes.foldl stripStep (trimBoth w, false)

/-- The `while work_done` loop, with an explicit iteration budget.
`extract_hashtags` runs it with budget `input.length + 1`, which is
proved sufficient: every pass that does work strictly shortens the
label (see the termination theorem for C10). -/
def loopAux : Nat → List (List Char) → List Char → List Char
  | 0, _, w => w
  | n + 1, hashes, w =>
    let r := pass hashes w
    if r.2 then loopAux n hashes r.1 else r.1

/-- `extract_hashtags` (`labels.rs` lines 65–94): returns the sorted
hashtag set and the label with its trailing hashtag chain removed.
The `HashSet` iteration order used by the trim loop is unspecified in
Rust; the sorted order is used here as the canonical choice, and the
determinism theorem (C3) proves the resulting label is the same for
every iteration order. -/
def extract_hashtags (l : List Char) : List (List Char) × List Char :=
  (sortedHashes l, loopAux (l.length + 1) (sortedHashes l) l)

/-! ## Variables -/

/-- Modelled from the spec: `TimeSpan` is a tagged union
`Day(i64) | Minute(i64) | Month(i64) | Year(i64)` (§3); the `Time`
type lives in `microdot-core/src/graph.rs`, which is not part of the
provided sources. -/
inductive Time
  | Day (n : Int)
  | Minute (n : Int)
  | Month (n : Int)
  | Year (n : Int)
deriving DecidableEq

/-- Modelled from the spec: `VariableValue` is a tagged union over
`String`, `Number(float64)`, `Boolean(bool)` and `Time` (§3); the type
lives in `graph.rs`, which is not part of the provided sources.  The
value tokens reaching it are drawn from `[A-Za-z0-9_-]+`, which
contains no decimal point, so every numeric literal the program can
produce denotes an integer exactly representable in `float64`; the
number payload is therefore modelled as an `Int`. -/
inductive VariableValue
  | string (s : List Char)
  | number (n : Int)
  | boolean (b : Bool)
  | time (t : Time)
deriving DecidableEq

/-- Modelled from the spec: a `Variable` is a named typed value whose
equality and hashing are by the `(name, value)` pair (§3); the type
lives in `graph.rs`, which is not part of the provided sources. -/
structure Variable where
  name : List Char
  value : VariableValue
deriving DecidableEq

/-- Numeric value of a digit string. -/
def digitsToNat (l : List Char) : Nat :=
  l.foldl (fun a c => a * 10 + (c.toNat - '0'.toNat)) 0

/-- Modelled from the spec: step 2 of type inference (§4.3) — a token
of the form `<integer><unit>` with unit one of `d`, `m`, `M`, `y`
(case-sensitive) denotes a `TimeSpan`. -/
def timeOf (s : List Char) : Option Time :=
  match s.getLast? with
  | none => none
  | some u =>
    let ds := s.dropLast
    if ds ≠ [] ∧ ds.all Char.isDigit then
      if u = 'd' then some (Time.Day (digitsToNat ds))
      else if u = 'm' then some (Time.Minute (digitsToNat ds))
      else if u = 'M' then some (Time.Month (digitsToNat ds))
      else if u = 'y' then some (Time.Year (digitsToNat ds))
      else none
    else none

/-- Modelled from the spec: step 3 of type inference (§4.3) — the
token parses fully as a numeric literal.  Within the reachable token
alphabet `[A-Za-z0-9_-]+` this means an optional leading `-` followed
by digits. -/
def isNumericLit : List Char → Bool
  | '-' :: ds => !ds.isEmpty && ds.all Char.isDigit
  | ds => !ds.isEmpty && ds.all Char.isDigit

/-- Numeric value of an accepted numeric literal. -/
def numValue : List Char → Int
  | '-' :: ds => -(digitsToNat ds : Int)
  | ds => (digitsToNat ds : Int)

/-- Modelled from the spec: `VariableValue::infer` (§4.3), which lives
in `graph.rs`, not part of the provided sources.  Ordered, first
success wins: Boolean (`"true"`/`"false"` literally), then Time, then
Number, then String as exhaustive fallback. -/
def VariableValue.infer (s : List Char) : VariableValue :=
  if s = "true".data then .boolean true
  else if s = "false".data then .boolean false
  else
    match timeOf s with
    | some t => .time t
    | none => if isNumericLit s then .number (numValue s) else .string s

/-- Fuelled version of the variable scanner (fuel only makes the
recursion structural; see `scanVars`). -/
def scanVarsF : Nat → List Char → List (List Char × List Char)
  | 0, _ => []
  | _ + 1, [] => []
  | n + 1, a :: rest =>
    if a = '$' then
      match rest with
      | [] => []
      | c :: cs =>
        if c.isAlpha then
          match cs.dropWhile isTagChar with
          | '=' :: rest2 =>
            let vrun := rest2.takeWhile isTagChar
            if vrun.isEmpty then scanVarsF n (c :: cs)
            else (c :: cs.takeWhile isTagChar, vrun) :: scanVarsF n (rest2.dropWhile isTagChar)
          | _ => scanVarsF n (c :: cs)
        else scanVarsF n (c :: cs)
    else scanVarsF n rest

/-- All `(name, value)` capture pairs of
`\$([A-Za-z][A-Za-z0-9_-]*)=([A-Za-z0-9_-]+)` over `l`, in order of
occurrence.  When a `$` does not begin a full match the regex engine
resumes the search at the next position; no later `$` is skipped by
that, so resuming right after the failed `$` is equivalent.  The fuel
`l.length` is always sufficient: every recursive call consumes at
least one character. -/
def scanVars (l : List Char) : List (List Char × List Char) := scanVarsF l.length l

/-- `extract_variables` (`labels.rs` lines 51–63): build the
`HashSet<Variable>` from all matches and return it together with the
input text unchanged.  The set is represented canonically as the
duplicate-free list of constructed variables; its Rust iteration
order is unspecified (see C3). -/
def extract_variables (l : List Char) : List Variable × List Char :=
  (((scanVars l).map fun p => Variable.mk p.1 (VariableValue.infer p.2)).dedup, l)

/-! ## NodeInfo -/

/-- Modelled from the spec: `HashTag` (§3, from `hash.rs`, not part of
the provided sources) is an immutable wrapper around the matched
string, equal iff the strings are equal and ordered lexicographically;
it is modelled by the string itself. -/
abbrev HashTag := List Char

/-- The parse result for one label (`labels.rs` lines 7–13). -/
structure NodeInfo where
  label : List Char
  tags : List HashTag
  vars : List Variable
  subgraph : Option HashTag
deriving DecidableEq

/-- `t.to_string().starts_with("#SG_")`. -/
def isSG (t : HashTag) : Bool := "#SG_".data.isPrefixOf t

/-- `NodeInfo::parse` (`labels.rs` lines 26–48): extract hashtags,
then variables, pick the first `#SG_`-prefixed tag of the sorted tag
list as the subgraph, and drop all `#SG_`-prefixed tags from the
ordinary tag list. -/
def NodeInfo.parse (l : List Char) : NodeInfo :=
  let ht := extract_hashtags l
  let vr := extract_variables ht.2
  { label := vr.2
    tags := ht.1.filter fun t => !isSG t
    vars := vr.1
    subgraph := ht.1.find? isSG }

/-! ## Generic list helpers -/

theorem head?_dropWhile_false {p : Char → Bool} {l : List Char} {c : Char}
    (h : (l.dropWhile p).head? = some c) : p c = false := by
  have := List.head?_dropWhile_not p l
  rw [h] at this
  exact this

theorem suffix_head?_eq {l₁ l₂ : List Char} (h : l₁ <:+ l₂) (hne : l₁ ≠ []) :
    l₂.getLast? = l₁.getLast? := by
  obtain ⟨u, rfl⟩ := h
  rcases l₁ with _ | ⟨a, t⟩
  · exact absurd rfl hne
  · rw [List.getLast?_append, List.getLast?_eq_getLast (a :: t) (by simp)]
    rfl

theorem pref_head?_eq {l₁ l₂ : List Char} (h : l₁ <+: l₂) (hne : l₁ ≠ []) :
    l₂.head? = l₁.head? := by
  obtain ⟨u, rfl⟩ := h
  rcases l₁ with _ | ⟨a, t⟩
  · exact absurd rfl hne
  · rfl

theorem suffix_of_suffix_le {l₁ l₂ w : List Char} (h₁ : l₁ <:+ w) (h₂ : l₂ <:+ w)
    (hle : l₁.length ≤ l₂.length) : l₁ <:+ l₂ := by
  obtain ⟨u₁, hu₁⟩ := h₁
  obtain ⟨u₂, hu₂⟩ := h₂
  have e₁ : l₁ = w.drop u₁.length := by rw [← hu₁, List.drop_left]
  have e₂ : l₂ = w.drop u₂.length := by rw [← hu₂, List.drop_left]
  have hw₁ : u₁.length + l₁.length = w.length := by
    rw [← hu₁, List.length_append]
  have hw₂ : u₂.length + l₂.length = w.length := by
    rw [← hu₂, List.length_append]
  have : l₁ = l₂.drop (u₁.length - u₂.length) := by
    rw [e₁, e₂, List.drop_drop]
    congr 1
    omega
  rw [this]
  exact List.drop_suffix _ _

theorem strip_of_suffix {h v : List Char} (hs : h <:+ v) :
    v.take (v.length - h.length) ++ h = v := by
  obtain ⟨u, rfl⟩ := hs
  have : (u ++ h).length - h.length = u.length := by
    rw [List.length_append]; omega
  rw [this, List.take_left]

theorem mem_of_ne_nil_head {l : List Char} (hne : l ≠ []) : ∃ c t, l = c :: t := by
  rcases l with _ | ⟨c, t⟩
  · exact absurd rfl hne
  · exact ⟨c, t, rfl⟩

/-! ## Trim lemmas -/

theorem trimL_suffix (l : List Char) : trimL l <:+ l := List.dropWhile_suffix _

theorem trimR_pref (l : List Char) : trimR l <+: l := by
  obtain ⟨u, hu⟩ := List.dropWhile_suffix (l := l.reverse) isWs
  refine ⟨u.reverse, ?_⟩
  have := congrArg List.reverse hu
  rwa [List.reverse_append, List.reverse_reverse] at this

theorem trimBoth_suffix_pref (l : List Char) :
    ∃ u v, l = u ++ trimBoth l ++ v ∧ u.all isWs = true ∧ v.all isWs = true := by
  obtain ⟨u, hu⟩ : trimL l <:+ l := trimL_suffix l
  obtain ⟨v, hv⟩ : trimR (trimL l) <+: trimL l := trimR_pref (trimL l)
  refine ⟨u, v, ?_, ?_, ?_⟩
  · rw [trimBoth, List.append_assoc, hv, hu]
  · rw [List.all_eq_true]
    intro x hx
    have hu' : u = l.takeWhile isWs := by
      have hx : u ++ trimL l = l.takeWhile isWs ++ trimL l := by
        rw [hu, trimL, List.takeWhile_append_dropWhile]
      exact List.append_cancel_right hx
    rw [hu'] at hx
    exact List.mem_takeWhile_imp hx
  · rw [List.all_eq_true]
    intro x hx
    have hrev : v.reverse ++ List.dropWhile isWs (trimL l).reverse = (trimL l).reverse := by
      have h2 := congrArg List.reverse hv
      rw [List.reverse_append, trimR, List.reverse_reverse] at h2
      exact h2
    have hveq : v.reverse = (trimL l).reverse.takeWhile isWs := by
      have hx : v.reverse ++ List.dropWhile isWs (trimL l).reverse =
          (trimL l).reverse.takeWhile isWs ++ List.dropWhile isWs (trimL l).reverse := by
        rw [hrev, List.takeWhile_append_dropWhile]
      exact List.append_cancel_right hx
    have hxr : x ∈ v.reverse := List.mem_reverse.mpr hx
    rw [hveq] at hxr
    exact List.mem_takeWhile_imp hxr

theorem trimBoth_length_le (l : List Char) : (trimBoth l).length ≤ l.length := by
  obtain ⟨u, v, he, _, _⟩ := trimBoth_suffix_pref l
  have := congrArg List.length he
  simp only [List.length_append] at this
  omega

theorem trimL_head?_not_ws {l : List Char} {c : Char} (h : (trimL l).head? = some c) :
    isWs c = false := head?_dropWhile_false h

theorem trimR_getLast?_not_ws {l : List Char} {c : Char} (h : (trimR l).getLast? = some c) :
    isWs c = false := by
  rw [trimR, List.getLast?_reverse] at h
  exact head?_dropWhile_false h

theorem trimL_eq_of_head {l : List Char} (h : ∀ c, l.head? = some c → isWs c = false) :
    trimL l = l := by
  rcases l with _ | ⟨a, t⟩
  · rfl
  · have := h a rfl
    rw [trimL, List.dropWhile_cons, this]
    simp

theorem trimR_eq_of_getLast {l : List Char} (h : ∀ c, l.getLast? = some c → isWs c = false) :
    trimR l = l := by
  rw [trimR]
  have : List.dropWhile isWs l.reverse = l.reverse := by
    rcases hr : l.reverse with _ | ⟨a, t⟩
    · rfl
    · have ha : l.getLast? = some a := by
        rw [List.getLast?_eq_head?_reverse, hr]; rfl
      rw [List.dropWhile_cons, h a ha]
      simp
  rw [this, List.reverse_reverse]

theorem trimBoth_head?_not_ws {l : List Char} {c : Char} (h : (trimBoth l).head? = some c) :
    isWs c = false := by
  rcases hE : trimBoth l with _ | ⟨a, t⟩
  · rw [hE] at h; exact absurd h (by simp)
  · rw [hE] at h
    have hne : trimBoth l ≠ [] := by rw [hE]; simp
    have hpre : trimBoth l <+: trimL l := trimR_pref (trimL l)
    have : (trimL l).head? = (trimBoth l).head? := pref_head?_eq hpre hne
    rw [hE] at this
    have := trimL_head?_not_ws (l := l) (c := a) this
    simp only [List.head?_cons] at h
    cases h
    exact this

theorem trimBoth_getLast?_not_ws {l : List Char} {c : Char}
    (h : (trimBoth l).getLast? = some c) : isWs c = false :=
  trimR_getLast?_not_ws h

theorem trimBoth_idem (l : List Char) : trimBoth (trimBoth l) = trimBoth l := by
  have h1 : trimL (trimBoth l) = trimBoth l :=
    trimL_eq_of_head fun c hc => trimBoth_head?_not_ws hc
  rw [trimBoth, h1]
  exact trimR_eq_of_getLast fun c hc => trimBoth_getLast?_not_ws hc

theorem trimL_ws_append {u x : List Char} (hu : u.all isWs = true) :
    trimL (u ++ x) = trimL x := by
  induction u with
  | nil => rfl
  | cons a t ih =>
    simp only [List.all_cons, Bool.and_eq_true] at hu
    rw [List.cons_append, trimL, List.dropWhile_cons, hu.1]
    exact ih hu.2

theorem trimBoth_ws_append {u x : List Char} (hu : u.all isWs = true) :
    trimBoth (u ++ x) = trimBoth x := by
  rw [trimBoth, trimL_ws_append hu]
  rfl

/-! ## Shape of scanned hashtags -/

/-- Every string the hashtag pattern can match: a `#`, a letter, then
a run of tag characters. -/
def TagShaped (h : List Char) : Prop :=
  ∃ c r, h = '#' :: c :: r ∧ c.isAlpha = true ∧ r.all isTagChar = true

theorem shape_scanTags : ∀ (l : List Char), ∀ t ∈ scanTags l, TagShaped t
  | [] => by rw [scanTags_nil]; intro t ht; exact absurd ht (by simp)
  | [a] => by
    by_cases ha : a = '#'
    · subst ha; rw [scanTags_hash_nil]; intro t ht; exact absurd ht (by simp)
    · rw [scanTags_not_hash ha, scanTags_nil]; intro t ht; exact absurd ht (by simp)
  | a :: c :: cs => by
    by_cases ha : a = '#'
    · subst ha
      by_cases hc : c.isAlpha = true
      · rw [scanTags_hash_alpha hc]
        intro t ht
        rcases List.mem_cons.mp ht with rfl | ht
        · refine ⟨c, cs.takeWhile isTagChar, rfl, hc, ?_⟩
          rw [List.all_eq_true]
          exact fun x hx => List.mem_takeWhile_imp hx
        · exact shape_scanTags (cs.dropWhile isTagChar) t ht
      · rw [scanTags_hash_not_alpha hc]
        exact shape_scanTags (c :: cs)
    · rw [scanTags_not_hash ha]
      exact shape_scanTags (c :: cs)
termination_by l => l.length
decreasing_by
  · have := (List.dropWhile_suffix (l := cs) isTagChar).length_le
    simp only [List.length_cons]
    omega
  · simp [List.length_cons]
  · simp [List.length_cons]

theorem TagShaped.ne_nil {h : List Char} (s : TagShaped h) : h ≠ [] := by
  obtain ⟨c, r, rfl, -, -⟩ := s
  simp

theorem TagShaped.two_le_length {h : List Char} (s : TagShaped h) : 2 ≤ h.length := by
  obtain ⟨c, r, rfl, -, -⟩ := s
  simp only [List.length_cons]
  omega

theorem TagShaped.head_hash {h : List Char} (s : TagShaped h) : h.head? = some '#' := by
  obtain ⟨c, r, rfl, -, -⟩ := s
  rfl

theorem TagShaped.no_ws {h : List Char} (s : TagShaped h) : ∀ x ∈ h, isWs x = false := by
  obtain ⟨c, r, rfl, hc, hr⟩ := s
  intro x hx
  rcases List.mem_cons.mp hx with rfl | hx
  · exact hash_not_ws
  · rcases List.mem_cons.mp hx with rfl | hx
    · exact tag_not_ws (alpha_tagChar hc)
    · exact tag_not_ws (List.all_eq_true.mp hr x hx)

theorem TagShaped.tail_no_hash {h : List Char} (s : TagShaped h) :
    ∀ x ∈ h.tail, x ≠ '#' := by
  obtain ⟨c, r, rfl, hc, hr⟩ := s
  intro x hx h0
  subst h0
  rcases List.mem_cons.mp hx with rfl | hx
  · rw [show ('#').isAlpha = false by decide] at hc
    exact absurd hc (by simp)
  · have := List.all_eq_true.mp hr _ hx
    rw [hash_not_tag] at this
    exact absurd this (by simp)

theorem TagShaped.getLast_not_ws {h : List Char} (s : TagShaped h) {c : Char}
    (hc : h.getLast? = some c) : isWs c = false := by
  have : c ∈ h := by
    have := List.mem_of_mem_getLast? (l := h) (a := c)
    exact this hc
  exact s.no_ws c this

/-- Two hashtag-shaped strings that are both suffixes of the same
string are equal: a hashtag contains `#` only as its first character,
so neither can be a proper suffix of the other. -/
theorem tag_suffix_unique {h₁ h₂ w : List Char} (s₁ : TagShaped h₁) (s₂ : TagShaped h₂)
    (hs₁ : h₁ <:+ w) (hs₂ : h₂ <:+ w) : h₁ = h₂ := by
  -- reduce to: a shaped tag is never a proper suffix of a shaped tag
  have key : ∀ g₁ g₂ : List Char, TagShaped g₁ → TagShaped g₂ → g₁ <:+ g₂ → g₁ = g₂ := by
    intro g₁ g₂ t₁ t₂ hg
    rcases Nat.lt_or_ge g₁.length g₂.length with hlt | hge
    · exfalso
      have tail2 := t₂.tail_no_hash
      obtain ⟨u, hu⟩ := hg
      obtain ⟨c₂, r₂, he₂, -, -⟩ := t₂
      have hune : u ≠ [] := by
        intro h0
        rw [h0, List.nil_append] at hu
        rw [hu] at hlt
        omega
      obtain ⟨x, ut, rfl⟩ := mem_of_ne_nil_head hune
      have hx : x = '#' := by
        have := congrArg List.head? hu
        rw [he₂] at this
        simpa using this
      have hhead : g₁.head? = some '#' := t₁.head_hash
      obtain ⟨c₁, r₁, he₁, -, -⟩ := t₁
      -- the '#' starting g₁ sits inside the tail of g₂
      have : '#' ∈ g₂.tail := by
        rw [he₂]
        have : ut ++ g₁ = c₂ :: r₂ := by
          have := hu
          rw [he₂, hx] at this
          exact (List.cons_inj_right _).mp this
        have hmem : '#' ∈ ut ++ g₁ := by
          rw [he₁]
          simp
        rw [this] at hmem
        simpa using hmem
      exact (tail2 '#' this) rfl
    · obtain ⟨u, hu⟩ := hg
      have hl : u.length + g₁.length = g₂.length := by
        rw [← hu, List.length_append]
      exact List.IsSuffix.eq_of_length ⟨u, hu⟩ (by omega)
  rcases Nat.le_total h₁.length h₂.length with hle | hle
  · exact key h₁ h₂ s₁ s₂ (suffix_of_suffix_le hs₁ hs₂ hle)
  · exact (key h₂ h₁ s₂ s₁ (suffix_of_suffix_le hs₂ hs₁ hle)).symm

/-- `find?` returns the unique element satisfying the predicate. -/
theorem find?_eq_of_unique {α : Type} {p : α → Bool} {H : List α} {a : α}
    (ha : a ∈ H) (hpa : p a = true) (uniq : ∀ b ∈ H, p b = true → b = a) :
    H.find? p = some a := by
  induction H with
  | nil => exact absurd ha (by simp)
  | cons x xs ih =>
    rw [List.find?_cons]
    cases hx : p x with
    | true =>
      have := uniq x (by simp) hx
      rw [this]
    | false =>
      rcases List.mem_cons.mp ha with rfl | ha'
      · rw [hx] at hpa; exact absurd hpa (by simp)
      · exact ih ha' fun b hb => uniq b (List.mem_cons_of_mem _ hb)

theorem shape_hashSetL {l : List Char} : ∀ t ∈ hashSetL l, TagShaped t := fun t ht =>
  shape_scanTags l t (List.mem_dedup.mp ht)

theorem mem_sortedHashes_iff {l : List Char} {t : List Char} :
    t ∈ sortedHashes l ↔ t ∈ hashSetL l :=
  (List.perm_insertionSort lexLeP (hashSetL l)).mem_iff

theorem shape_sortedHashes {l : List Char} : ∀ t ∈ sortedHashes l, TagShaped t := fun t ht =>
  shape_hashSetL t (mem_sortedHashes_iff.mp ht)

/-! ## The canonical normal form of the trim loop -/

theorem take_pref {α : Type} (n : Nat) (l : List α) : l.take n <+: l :=
  ⟨l.drop n, List.take_append_drop n l⟩

/-- Strip one trailing hashtag (there is at most one possible, by
`tag_suffix_unique`).  The non-emptiness guard only serves the
termination argument; every scanned hashtag is nonempty. -/
def stripOnce (H : List (List Char)) (w : List Char) : Option (List Char) :=
  (H.find? fun h => !h.isEmpty && h.isSuffixOf w).map fun h => w.take (w.length - h.length)

theorem stripOnce_length_lt {H : List (List Char)} {w w2 : List Char}
    (hs : stripOnce H (trimBoth w) = some w2) : w2.length < w.length := by
  obtain ⟨h0, hfind, hw2⟩ := Option.map_eq_some'.mp hs
  have hp := List.find?_some hfind
  simp only [Bool.and_eq_true, Bool.not_eq_true'] at hp
  have hne : h0 ≠ [] := by
    intro h
    rw [h] at hp
    exact absurd hp.1 (by simp)
  have hlen0 : 0 < h0.length := List.length_pos.mpr hne
  have hsuf : h0 <:+ trimBoth w := List.isSuffixOf_iff_suffix.mp hp.2
  have hle : h0.length ≤ (trimBoth w).length := hsuf.length_le
  have htl := trimBoth_length_le w
  rw [← hw2, List.length_take]
  omega

/-- The normal form that the trim loop computes: repeatedly trim and
strip the unique trailing hashtag until neither applies. -/
def normalize (H : List (List Char)) (w : List Char) : List Char :=
  match hs : stripOnce H (trimBoth w) with
  | some w2 => normalize H w2
  | none => trimBoth w
termination_by w.length
decreasing_by
  exact stripOnce_length_lt hs

theorem normalize_eq_some {H : List (List Char)} {w w2 : List Char}
    (h : stripOnce H (trimBoth w) = some w2) : normalize H w = normalize H w2 := by
  rw [normalize.eq_def]
  split
  · rename_i w3 hw3
    rw [h] at hw3
    cases hw3
    rfl
  · rename_i hw3
    rw [h] at hw3
    cases hw3

theorem normalize_eq_none {H : List (List Char)} {w : List Char}
    (h : stripOnce H (trimBoth w) = none) : normalize H w = trimBoth w := by
  rw [normalize.eq_def]
  split
  · rename_i w3 hw3
    rw [h] at hw3
    cases hw3
  · rfl

theorem normalize_congr {H : List (List Char)} {a b : List Char}
    (h : trimBoth a = trimBoth b) : normalize H a = normalize H b := by
  cases hs : stripOnce H (trimBoth b) with
  | some w2 => rw [normalize_eq_some (by rw [h]; exact hs), normalize_eq_some hs]
  | none => rw [normalize_eq_none (by rw [h]; exact hs), normalize_eq_none hs, h]

theorem stripOnce_shaped_none {H : List (List Char)} {w : List Char}
    (hnone : ∀ h ∈ H, ¬ h <:+ w) : stripOnce H w = none := by
  rw [stripOnce, Option.map_eq_none', List.find?_eq_none]
  intro h hh
  simp only [Bool.and_eq_true, Bool.not_eq_true', not_and]
  intro _
  intro hsf
  exact hnone h hh (List.isSuffixOf_iff_suffix.mp hsf)

theorem stripOnce_shaped_some {H : List (List Char)} {w h : List Char}
    (shaped : ∀ x ∈ H, TagShaped x) (hH : h ∈ H) (hs : h <:+ w) :
    stripOnce H w = some (w.take (w.length - h.length)) := by
  rw [stripOnce]
  have hfind : (H.find? fun x => !x.isEmpty && x.isSuffixOf w) = some h := by
    apply find?_eq_of_unique hH
    · simp only [Bool.and_eq_true, Bool.not_eq_true']
      refine ⟨?_, List.isSuffixOf_iff_suffix.mpr hs⟩
      rw [List.isEmpty_eq_false_iff_exists_mem]
      obtain ⟨c, t, rfl⟩ := mem_of_ne_nil_head (shaped h hH).ne_nil
      exact ⟨c, by simp⟩
    · intro b hb hpb
      simp only [Bool.and_eq_true, Bool.not_eq_true'] at hpb
      exact tag_suffix_unique (shaped b hb) (shaped h hH)
        (List.isSuffixOf_iff_suffix.mp hpb.2) hs
  rw [hfind]
  rfl

theorem normalize_trimmed {H : List (List Char)} : ∀ (w : List Char),
    trimBoth (normalize H w) = normalize H w
  | w => by
    cases hs : stripOnce H (trimBoth w) with
    | some w2 =>
      rw [normalize_eq_some hs]
      exact normalize_trimmed w2
    | none =>
      rw [normalize_eq_none hs]
      exact trimBoth_idem w
termination_by w => w.length
decreasing_by
  exact stripOnce_length_lt hs

theorem normalize_fix {H : List (List Char)} : ∀ (w : List Char),
    stripOnce H (normalize H w) = none
  | w => by
    cases hs : stripOnce H (trimBoth w) with
    | some w2 =>
      rw [normalize_eq_some hs]
      exact normalize_fix w2
    | none =>
      rw [normalize_eq_none hs]
      exact hs
termination_by w => w.length
decreasing_by
  exact stripOnce_length_lt hs

theorem pref_trimBoth_trimL {w w2 : List Char} (h : w2 <+: trimBoth w) :
    trimL w2 = w2 := by
  rcases hE : w2 with _ | ⟨a, t⟩
  · rfl
  · rw [← hE]
    apply trimL_eq_of_head
    intro c hc
    have hne : w2 ≠ [] := by rw [hE]; simp
    have hq := pref_head?_eq h hne
    rw [hc] at hq
    exact trimBoth_head?_not_ws hq

theorem normalize_pref {H : List (List Char)} : ∀ (w : List Char),
    normalize H w <+: trimBoth w
  | w => by
    cases hs : stripOnce H (trimBoth w) with
    | some w2 =>
      rw [normalize_eq_some hs]
      have hw2pre : w2 <+: trimBoth w := by
        obtain ⟨h0, hfind, hw2⟩ := Option.map_eq_some'.mp hs
        rw [← hw2]
        exact take_pref _ _
      have h1 : normalize H w2 <+: trimBoth w2 := normalize_pref w2
      have h2 : trimBoth w2 <+: w2 := by
        rw [trimBoth, pref_trimBoth_trimL hw2pre]
        exact trimR_pref w2
      exact (h1.trans h2).trans hw2pre
    | none =>
      rw [normalize_eq_none hs]
termination_by w => w.length
decreasing_by
  exact stripOnce_length_lt hs

/-! ## Invariance of the normal form under single loop steps -/

theorem suffix_trimL {h v : List Char} (s : TagShaped h) (hsuf : h <:+ v) :
    h <:+ trimL v := by
  rcases le_or_lt h.length (trimL v).length with hle | hlt
  · exact suffix_of_suffix_le hsuf (trimL_suffix v) hle
  · exfalso
    have hcore : trimL v <:+ h := suffix_of_suffix_le (trimL_suffix v) hsuf (by omega)
    obtain ⟨u, hu⟩ := hcore
    have hune : u ≠ [] := by
      intro h0
      rw [h0, List.nil_append] at hu
      rw [hu] at hlt
      omega
    obtain ⟨p, hp⟩ := hsuf
    have hv : v.takeWhile isWs ++ trimL v = v := by
      rw [trimL, List.takeWhile_append_dropWhile]
    have hpu : (p ++ u) ++ trimL v = v.takeWhile isWs ++ trimL v := by
      rw [List.append_assoc, hu, hp, hv]
    have hpueq : p ++ u = v.takeWhile isWs := List.append_cancel_right hpu
    obtain ⟨x, ut, rfl⟩ := mem_of_ne_nil_head hune
    have hxmem : x ∈ v.takeWhile isWs := by
      rw [← hpueq]
      exact List.mem_append_right p (by simp)
    have hxws : isWs x = true := List.mem_takeWhile_imp hxmem
    have hxhash : x = '#' := by
      have hq := congrArg List.head? hu
      rw [s.head_hash] at hq
      simpa using hq
    rw [hxhash, hash_not_ws] at hxws
    exact absurd hxws (by simp)

theorem trimBoth_of_tag_suffix {h v : List Char} (s : TagShaped h) (hsuf : h <:+ v) :
    trimBoth v = trimL v := by
  rw [trimBoth]
  have hL : h <:+ trimL v := suffix_trimL s hsuf
  apply trimR_eq_of_getLast
  intro c hc
  have hglast : (trimL v).getLast? = h.getLast? := suffix_head?_eq hL s.ne_nil
  rw [hc] at hglast
  exact s.getLast_not_ws hglast.symm

theorem normalize_strip {H : List (List Char)} {h w : List Char}
    (shaped : ∀ x ∈ H, TagShaped x) (hH : h ∈ H) (hsuf : h <:+ w) :
    normalize H w = normalize H (w.take (w.length - h.length)) := by
  have s := shaped h hH
  have htb : trimBoth w = trimL w := trimBoth_of_tag_suffix s hsuf
  have hsufL : h <:+ trimL w := suffix_trimL s hsuf
  have hstep : stripOnce H (trimBoth w) =
      some ((trimL w).take ((trimL w).length - h.length)) := by
    rw [htb]
    exact stripOnce_shaped_some shaped hH hsufL
  rw [normalize_eq_some hstep]
  -- both sides normalize the label with `h` removed, up to leading whitespace
  have hv : w.takeWhile isWs ++ trimL w = w := by
    rw [trimL, List.takeWhile_append_dropWhile]
  have hcore : (trimL w).take ((trimL w).length - h.length) ++ h = trimL w :=
    strip_of_suffix hsufL
  have hwsall : (w.takeWhile isWs).all isWs = true := by
    rw [List.all_eq_true]
    exact fun x hx => List.mem_takeWhile_imp hx
  obtain ⟨A, hA⟩ : ∃ A, w.takeWhile isWs = A := ⟨_, rfl⟩
  obtain ⟨B, hB⟩ : ∃ B, (trimL w).take ((trimL w).length - h.length) = B := ⟨_, rfl⟩
  rw [hA] at hv hwsall
  rw [hB] at hcore ⊢
  have hw : w = A ++ (B ++ h) := by
    rw [hcore, hv]
  have htake : w.take (w.length - h.length) = A ++ B := by
    have hlen : w.length - h.length = A.length + B.length := by
      have h1 := congrArg List.length hw
      simp only [List.length_append] at h1
      omega
    rw [hlen, hw, List.take_append, List.take_left]
  rw [htake]
  exact (normalize_congr (trimBoth_ws_append hwsall)).symm

/-! ## The pass (one `while` iteration) -/

theorem foldl_stripStep_flag_true : ∀ (O : List (List Char)) (v : List Char),
    (O.foldl stripStep (v, true)).2 = true
  | [], _ => rfl
  | h :: O', v => by
    rw [List.foldl_cons]
    cases hsf : h.isSuffixOf v with
    | true =>
      have hstep : stripStep (v, true) h = (v.take (v.length - h.length), true) := by
        rw [stripStep]
        simp [hsf]
      rw [hstep]
      exact foldl_stripStep_flag_true O' _
    | false =>
      have hstep : stripStep (v, true) h = (v, true) := by
        rw [stripStep]
        simp [hsf]
      rw [hstep]
      exact foldl_stripStep_flag_true O' v

theorem foldl_stripStep_no_suffix : ∀ (O : List (List Char)) (v : List Char) (f : Bool),
    (∀ h ∈ O, ¬ h <:+ v) → O.foldl stripStep (v, f) = (v, f)
  | [], _, _, _ => rfl
  | h :: O', v, f, hno => by
    rw [List.foldl_cons]
    have hns : h.isSuffixOf v = false := by
      rw [← Bool.not_eq_true]
      intro hsf
      exact hno h (by simp) (List.isSuffixOf_iff_suffix.mp hsf)
    have hss : stripStep (v, f) h = (v, f) := by
      rw [stripStep]
      simp [hns]
    rw [hss]
    exact foldl_stripStep_no_suffix O' v f fun x hx => hno x (List.mem_cons_of_mem _ hx)

theorem foldl_stripStep_false : ∀ (O : List (List Char)) (v v2 : List Char),
    O.foldl stripStep (v, false) = (v2, false) →
    v2 = v ∧ ∀ h ∈ O, ¬ h <:+ v
  | [], v, v2, hfold => by
    cases hfold
    exact ⟨rfl, by simp⟩
  | h :: O', v, v2, hfold => by
    rw [List.foldl_cons] at hfold
    cases hsf : h.isSuffixOf v with
    | true =>
      exfalso
      have hstep : stripStep (v, false) h = (v.take (v.length - h.length), true) := by
        rw [stripStep]
        simp [hsf]
      rw [hstep] at hfold
      have := foldl_stripStep_flag_true O' (v.take (v.length - h.length))
      rw [hfold] at this
      exact absurd this (by simp)
    | false =>
      have hstep : stripStep (v, false) h = (v, false) := by
        rw [stripStep]
        simp [hsf]
      rw [hstep] at hfold
      obtain ⟨he, hall⟩ := foldl_stripStep_false O' v v2 hfold
      refine ⟨he, ?_⟩
      intro x hx
      rcases List.mem_cons.mp hx with rfl | hx'
      · intro hsuf
        rw [List.isSuffixOf_iff_suffix.mpr hsuf] at hsf
        cases hsf
      · exact hall x hx'

theorem foldl_stripStep_normalize {H : List (List Char)}
    (shaped : ∀ x ∈ H, TagShaped x) :
    ∀ (O : List (List Char)) (v : List Char) (f : Bool), (∀ x ∈ O, x ∈ H) →
    normalize H (O.foldl stripStep (v, f)).1 = normalize H v
  | [], _, _, _ => rfl
  | h :: O', v, f, hsub => by
    rw [List.foldl_cons]
    cases hsf : h.isSuffixOf v with
    | true =>
      have hstep : stripStep (v, f) h = (v.take (v.length - h.length), true) := by
        rw [stripStep]
        simp [hsf]
      rw [hstep]
      rw [foldl_stripStep_normalize shaped O' _ true
        fun x hx => hsub x (List.mem_cons_of_mem _ hx)]
      exact (normalize_strip shaped (hsub h (by simp))
        (List.isSuffixOf_iff_suffix.mp hsf)).symm
    | false =>
      have hstep : stripStep (v, f) h = (v, f) := by
        rw [stripStep]
        simp [hsf]
      rw [hstep]
      exact foldl_stripStep_normalize shaped O' v f
        fun x hx => hsub x (List.mem_cons_of_mem _ hx)

theorem foldl_stripStep_length (O : List (List Char)) (hne : ∀ x ∈ O, x ≠ []) :
    ∀ (v : List Char) (f : Bool),
    (O.foldl stripStep (v, f)).1.length ≤ v.length ∧
      ((O.foldl stripStep (v, f)).2 = true → f = false →
        (O.foldl stripStep (v, f)).1.length < v.length) := by
  induction O with
  | nil =>
    intro v f
    refine ⟨le_refl _, ?_⟩
    intro ht hf
    rw [List.foldl_nil] at ht
    rw [hf] at ht
    cases ht
  | cons h O' ih =>
    intro v f
    rw [List.foldl_cons]
    cases hsf : h.isSuffixOf v with
    | true =>
      have hstep : stripStep (v, f) h = (v.take (v.length - h.length), true) := by
        rw [stripStep]
        simp [hsf]
      rw [hstep]
      have hlenh : 0 < h.length :=
        List.length_pos.mpr (hne h (by simp))
      have hhle : h.length ≤ v.length :=
        (List.isSuffixOf_iff_suffix.mp hsf).length_le
      have htlen : (v.take (v.length - h.length)).length < v.length := by
        rw [List.length_take]
        omega
      obtain ⟨h1, _⟩ := ih (fun x hx => hne x (List.mem_cons_of_mem _ hx))
        (v.take (v.length - h.length)) true
      exact ⟨by omega, fun _ _ => by omega⟩
    | false =>
      have hstep : stripStep (v, f) h = (v, f) := by
        rw [stripStep]
        simp [hsf]
      rw [hstep]
      exact ih (fun x hx => hne x (List.mem_cons_of_mem _ hx)) v f

theorem pass_eq_of_false {O : List (List Char)} {w : List Char}
    (h : (pass O w).2 = false) :
    (pass O w).1 = trimBoth w ∧ ∀ x ∈ O, ¬ x <:+ trimBoth w := by
  rcases hp : pass O w with ⟨v2, f2⟩
  rw [hp] at h
  cases h
  rw [pass] at hp
  obtain ⟨he, hall⟩ := foldl_stripStep_false O (trimBoth w) v2 hp
  exact ⟨he, hall⟩

theorem pass_normalize {H O : List (List Char)} {w : List Char}
    (shaped : ∀ x ∈ H, TagShaped x) (hsub : ∀ x ∈ O, x ∈ H) :
    normalize H (pass O w).1 = normalize H w := by
  rw [pass, foldl_stripStep_normalize shaped O (trimBoth w) false hsub]
  exact normalize_congr (trimBoth_idem w)

theorem pass_length_lt {H O : List (List Char)} {w : List Char}
    (shaped : ∀ x ∈ H, TagShaped x) (hsub : ∀ x ∈ O, x ∈ H)
    (h : (pass O w).2 = true) : (pass O w).1.length < w.length := by
  have hne : ∀ x ∈ O, x ≠ [] := fun x hx => (shaped x (hsub x hx)).ne_nil
  obtain ⟨h1, h2⟩ := foldl_stripStep_length O hne (trimBoth w) false
  have := trimBoth_length_le w
  rcases Nat.lt_or_ge (trimBoth w).length w.length with hlt | hge
  · rw [pass] at h ⊢
    omega
  · rw [pass] at h ⊢
    have := h2 h rfl
    omega

/-! ## The loop computes the normal form, for every iteration order -/

theorem loopAux_eq_normalize {H O : List (List Char)}
    (shaped : ∀ x ∈ H, TagShaped x) (hOH : ∀ x, x ∈ O ↔ x ∈ H) :
    ∀ (fuel : Nat) (w : List Char), w.length < fuel → loopAux fuel O w = normalize H w := by
  intro fuel
  induction fuel with
  | zero => intro w hw; omega
  | succ n ih =>
    intro w hw
    show (if (pass O w).2 = true then loopAux n O (pass O w).1 else (pass O w).1) =
      normalize H w
    cases hr2 : (pass O w).2 with
    | true =>
      rw [if_pos rfl]
      have hlt : (pass O w).1.length < w.length :=
        pass_length_lt shaped (fun x hx => (hOH x).mp hx) hr2
      rw [ih (pass O w).1 (by omega)]
      exact pass_normalize shaped fun x hx => (hOH x).mp hx
    | false =>
      rw [if_neg (by simp)]
      obtain ⟨he, hall⟩ := pass_eq_of_false hr2
      rw [he]
      have : stripOnce H (trimBoth w) = none := by
        apply stripOnce_shaped_none
        intro x hx
        exact hall x ((hOH x).mpr hx)
      rw [normalize_eq_none this]

/-! ## The loop result, via the normal form -/

theorem extract_hashtags_label (l : List Char) :
    (extract_hashtags l).2 = normalize (hashSetL l) l :=
  loopAux_eq_normalize shape_hashSetL (fun _ => mem_sortedHashes_iff)
    (l.length + 1) l (by omega)

theorem stripOnce_none_no_suffix {H : List (List Char)} {w : List Char}
    (h : stripOnce H w = none) : ∀ x ∈ H, x ≠ [] → ¬ x <:+ w := by
  rw [stripOnce, Option.map_eq_none', List.find?_eq_none] at h
  intro x hx hne hsuf
  have := h x hx
  simp only [Bool.and_eq_true, Bool.not_eq_true', not_and] at this
  have hie : x.isEmpty = false := by
    rcases x with _ | _
    · exact absurd rfl hne
    · rfl
  have := this hie
  rw [List.isSuffixOf_iff_suffix.mpr hsuf] at this
  exact this rfl

theorem clean_label_trimmed (l : List Char) :
    trimBoth ((extract_hashtags l).2) = (extract_hashtags l).2 := by
  rw [extract_hashtags_label]
  exact normalize_trimmed l

theorem clean_label_no_tag_suffix (l : List Char) :
    ∀ x ∈ hashSetL l, ¬ x <:+ (extract_hashtags l).2 := by
  intro x hx
  rw [extract_hashtags_label]
  exact stripOnce_none_no_suffix (normalize_fix l) x hx (shape_hashSetL x hx).ne_nil

/-- A pass over a label that is already fully cleaned strips nothing
and trims nothing. -/
theorem pass_at_clean {O : List (List Char)} {l : List Char}
    (hOsub : ∀ x ∈ O, x ∈ hashSetL l) :
    pass O ((extract_hashtags l).2) = ((extract_hashtags l).2, false) := by
  rw [pass, clean_label_trimmed]
  exact foldl_stripStep_no_suffix O _ false
    fun x hx => clean_label_no_tag_suffix l x (hOsub x hx)

/-! ## Checked (Option-valued) variant: the code's partial operations

`NodeInfo::parse` has two ways to fail to return a value: the `while
work_done` loop could run forever, and the byte slice
`new_label[..split_at]` taken after a successful `ends_with` check
could fall outside the string.  `parseChecked` makes both explicit:
the loop budget exhausting and the strip guard failing become `none`.
The totality theorem (C8) proves `parseChecked` never returns
`none` and always agrees with `parse`. -/

/-- `stripStep` with the slice made explicit: the slice demands that
the matched suffix fit inside the working label. -/
def stripStepChecked (acc : Option (List Char × Bool)) (h : List Char) :
    Option (List Char × Bool) :=
  match acc with
  | none => none
  | some (w, f) =>
    if h.isSuffixOf w then
      if h.length ≤ w.length then some (w.take (w.length - h.length), true) else none
    else some (w, f)

def passChecked (hashes : List (List Char)) (w : List Char) :
    Option (List Char × Bool) :=
  hashes.foldl stripStepChecked (some (trimBoth w, false))

def loopAuxChecked : Nat → List (List Char) → List Char → Option (List Char)
  | 0, _, _ => none
  | n + 1, hashes, w =>
    match passChecked hashes w with
    | none => none
    | some r => if r.2 then loopAuxChecked n hashes r.1 else some r.1

def extract_hashtagsChecked (l : List Char) : Option (List (List Char) × List Char) :=
  (loopAuxChecked (l.length + 1) (sortedHashes l) l).map fun w => (sortedHashes l, w)

/-- `NodeInfo::parse` with every partial operation made explicit. -/
def NodeInfo.parseChecked (l : List Char) : Option NodeInfo :=
  (extract_hashtagsChecked l).map fun ht =>
    { label := (extract_variables ht.2).2
      tags := ht.1.filter fun t => !isSG t
      vars := (extract_variables ht.2).1
      subgraph := ht.1.find? isSG }

theorem passChecked_eq (hashes : List (List Char)) (w : List Char) :
    passChecked hashes w = some (pass hashes w) := by
  rw [passChecked, pass]
  suffices hgen : ∀ (O : List (List Char)) (v : List Char) (f : Bool),
      O.foldl stripStepChecked (some (v, f)) = some (O.foldl stripStep (v, f)) by
    exact hgen hashes (trimBoth w) false
  intro O
  induction O with
  | nil => intro v f; rfl
  | cons h O' ih =>
    intro v f
    rw [List.foldl_cons, List.foldl_cons]
    cases hsf : h.isSuffixOf v with
    | true =>
      have hle : h.length ≤ v.length := (List.isSuffixOf_iff_suffix.mp hsf).length_le
      have h1 : stripStepChecked (some (v, f)) h =
          some (v.take (v.length - h.length), true) := by
        rw [stripStepChecked]
        simp [hsf, hle]
      have h2 : stripStep (v, f) h = (v.take (v.length - h.length), true) := by
        rw [stripStep]
        simp [hsf]
      rw [h1, h2]
      exact ih _ _
    | false =>
      have h1 : stripStepChecked (some (v, f)) h = some (v, f) := by
        rw [stripStepChecked]
        simp [hsf]
      have h2 : stripStep (v, f) h = (v, f) := by
        rw [stripStep]
        simp [hsf]
      rw [h1, h2]
      exact ih _ _

theorem loopAuxChecked_eq {H O : List (List Char)}
    (shaped : ∀ x ∈ H, TagShaped x) (hOH : ∀ x, x ∈ O ↔ x ∈ H) :
    ∀ (fuel : Nat) (w : List Char), w.length < fuel →
    loopAuxChecked fuel O w = some (loopAux fuel O w) := by
  intro fuel
  induction fuel with
  | zero => intro w hw; omega
  | succ n ih =>
    intro w hw
    show (match passChecked O w with
      | none => none
      | some r => if r.2 then loopAuxChecked n O r.1 else some r.1) = _
    rw [passChecked_eq]
    show (if (pass O w).2 = true then loopAuxChecked n O (pass O w).1
      else some (pass O w).1) =
      some (if (pass O w).2 = true then loopAux n O (pass O w).1 else (pass O w).1)
    cases hr2 : (pass O w).2 with
    | true =>
      rw [if_pos rfl, if_pos rfl]
      have hlt : (pass O w).1.length < w.length :=
        pass_length_lt shaped (fun x hx => (hOH x).mp hx) hr2
      exact ih (pass O w).1 (by omega)
    | false =>
      rw [if_neg (by simp), if_neg (by simp)]

/-! ## Iteration-order-parameterised parse (for the determinism claim)

The Rust implementation iterates two `HashSet`s in an unspecified
order: the hashtag set inside the trim loop, and the variable set when
collecting it into the output `Vec`.  `parseWith` exposes both as
parameters; `NodeInfo.parse` is the canonical instance. -/

def parseWith (O : List (List Char)) (V : List Variable) (l : List Char) : NodeInfo :=
  { label := loopAux (l.length + 1) O l
    tags := (sortedHashes l).filter fun t => !isSG t
    vars := V
    subgraph := (sortedHashes l).find? isSG }

theorem parseWith_canonical (l : List Char) :
    parseWith (sortedHashes l) (extract_variables ((extract_hashtags l).2)).1 l =
      NodeInfo.parse l := rfl

theorem parseWith_label {O : List (List Char)} {l : List Char}
    (hO : O.Perm (hashSetL l)) :
    (parseWith O V l).label = normalize (hashSetL l) l :=
  loopAux_eq_normalize shape_hashSetL (fun x => hO.mem_iff)
    (l.length + 1) l (by omega)

/-! ## Completeness of the scanner

An occurrence of a hashtag-shaped token whose run is maximal (the next
character is not a tag character, or the string ends) is always
reported by the scanner.  This is what makes re-scanning a cleaned
label find no new trailing hashtag: cleaning only ever cuts the label
in front of a removed `#` or in front of removed whitespace. -/

/-- What may legally follow a complete hashtag occurrence: end of
string, or a character outside `[A-Za-z0-9_-]`. -/
def PostOk (post : List Char) : Prop :=
  post = [] ∨ ∃ c t, post = c :: t ∧ isTagChar c = false

theorem takeWhile_tag_append {r b : List Char} (hall : r.all isTagChar = true)
    (hb : PostOk b) : (r ++ b).takeWhile isTagChar = r := by
  induction r with
  | nil =>
    rcases hb with rfl | ⟨c, t, rfl, hc⟩
    · rfl
    · rw [List.nil_append, List.takeWhile_cons, hc]
      simp
  | cons a r' ih =>
    simp only [List.all_cons, Bool.and_eq_true] at hall
    rw [List.cons_append, List.takeWhile_cons, hall.1, ih hall.2]
    simp

theorem dropWhile_tag_append {r b : List Char} (hall : r.all isTagChar = true)
    (hb : PostOk b) : (r ++ b).dropWhile isTagChar = b := by
  induction r with
  | nil =>
    rcases hb with rfl | ⟨c, t, rfl, hc⟩
    · rfl
    · rw [List.nil_append, List.dropWhile_cons, hc]
      simp
  | cons a r' ih =>
    simp only [List.all_cons, Bool.and_eq_true] at hall
    rw [List.cons_append, List.dropWhile_cons, hall.1]
    simpa using ih hall.2

theorem dropWhile_append_cons {p : Char → Bool} {u t : List Char} {c : Char}
    (hc : p c = false) : (u ++ c :: t).dropWhile p = u.dropWhile p ++ c :: t := by
  induction u with
  | nil =>
    rw [List.nil_append, List.dropWhile_cons, hc, List.dropWhile_nil, List.nil_append]
    simp
  | cons a u' ih =>
    rw [List.cons_append, List.dropWhile_cons, List.dropWhile_cons]
    cases hpa : p a with
    | true => simpa using ih
    | false => simp

theorem scan_complete {c : Char} (hc : c.isAlpha = true) :
    ∀ (fuel : Nat) (a r b : List Char),
    (a ++ ('#' :: c :: r) ++ b).length ≤ fuel →
    r.all isTagChar = true → PostOk b →
    ('#' :: c :: r) ∈ scanTags (a ++ ('#' :: c :: r) ++ b) := by
  intro fuel
  induction fuel with
  | zero =>
    intro a r b hlen _ _
    simp [List.length_append] at hlen
  | succ n ih =>
    intro a r b hlen hall hb
    rcases a with _ | ⟨x, a'⟩
    · rw [List.nil_append]
      have hshow : ('#' :: c :: r) ++ b = '#' :: c :: (r ++ b) := by simp
      rw [hshow, scanTags_hash_alpha hc, takeWhile_tag_append hall hb]
      exact List.mem_cons_self _ _
    · by_cases hx : x = '#'
      · subst hx
        rcases a' with _ | ⟨y, a''⟩
        · have hshow : (['#'] ++ ('#' :: c :: r) ++ b) = '#' :: '#' :: (c :: r ++ b) := by
            simp
          rw [hshow, scanTags_hash_not_alpha (by decide)]
          have hback : ('#' :: c :: r ++ b) = [] ++ ('#' :: c :: r) ++ b := by simp
          rw [show ('#' :: (c :: r ++ b) : List Char) = [] ++ ('#' :: c :: r) ++ b by simp]
          apply ih [] r b ?_ hall hb
          simp only [List.length_append, List.length_cons, List.length_nil] at hlen ⊢
          omega
        · by_cases hy : y.isAlpha = true
          · have hshow : (('#' :: y :: a'') ++ ('#' :: c :: r) ++ b) =
                '#' :: y :: (a'' ++ '#' :: (c :: (r ++ b))) := by simp
            rw [hshow, scanTags_hash_alpha hy]
            apply List.mem_cons_of_mem
            rw [dropWhile_append_cons hash_not_tag]
            rw [show (a''.dropWhile isTagChar ++ '#' :: (c :: (r ++ b)) : List Char) =
              a''.dropWhile isTagChar ++ ('#' :: c :: r) ++ b by simp]
            apply ih (a''.dropWhile isTagChar) r b ?_ hall hb
            have hd := (List.dropWhile_suffix (l := a'') isTagChar).length_le
            simp only [List.length_append, List.length_cons] at hlen ⊢
            omega
          · have hshow : (('#' :: y :: a'') ++ ('#' :: c :: r) ++ b) =
                '#' :: y :: (a'' ++ ('#' :: c :: r) ++ b) := by simp
            rw [hshow, scanTags_hash_not_alpha hy]
            rw [show (y :: (a'' ++ ('#' :: c :: r) ++ b) : List Char) =
              (y :: a'') ++ ('#' :: c :: r) ++ b by simp]
            apply ih (y :: a'') r b ?_ hall hb
            simp only [List.length_append, List.length_cons] at hlen ⊢
            omega
      · rw [show ((x :: a') ++ ('#' :: c :: r) ++ b : List Char) =
          x :: (a' ++ ('#' :: c :: r) ++ b) by simp]
        rw [scanTags_not_hash hx]
        apply ih a' r b ?_ hall hb
        simp only [List.length_append, List.length_cons] at hlen ⊢
        omega

/-! ## Decomposition: the cleaned label sits inside the input -/

theorem normalize_decomp {H : List (List Char)} (shaped : ∀ x ∈ H, TagShaped x) :
    ∀ (w : List Char), ∃ pre post, w = pre ++ normalize H w ++ post ∧ PostOk post
  | w => by
    cases hs : stripOnce H (trimBoth w) with
    | none =>
      rw [normalize_eq_none hs]
      obtain ⟨u, v, he, hu, hv⟩ := trimBoth_suffix_pref w
      refine ⟨u, v, he, ?_⟩
      rcases v with _ | ⟨c, t⟩
      · exact Or.inl rfl
      · refine Or.inr ⟨c, t, rfl, ?_⟩
        simp only [List.all_cons, Bool.and_eq_true] at hv
        exact ws_not_tag hv.1
    | some w2 =>
      rw [normalize_eq_some hs]
      obtain ⟨pre2, post2, he2, hp2⟩ := normalize_decomp shaped w2
      obtain ⟨h0, hfind, hw2⟩ := Option.map_eq_some'.mp hs
      have hmem : h0 ∈ H := List.mem_of_find?_eq_some hfind
      have hp := List.find?_some hfind
      simp only [Bool.and_eq_true, Bool.not_eq_true'] at hp
      have hsuf : h0 <:+ trimBoth w := List.isSuffixOf_iff_suffix.mp hp.2
      have hstrip : w2 ++ h0 = trimBoth w := by
        rw [← hw2]
        exact strip_of_suffix hsuf
      obtain ⟨u, v, he, hu, hv⟩ := trimBoth_suffix_pref w
      refine ⟨u ++ pre2, post2 ++ (h0 ++ v), ?_, ?_⟩
      · show w = u ++ pre2 ++ normalize H w2 ++ (post2 ++ (h0 ++ v))
        rw [he, ← hstrip]
        conv_lhs => rw [he2]
        simp [List.append_assoc]
      · rcases hp2 with rfl | ⟨c, t, rfl, hct⟩
        · obtain ⟨cc, tt, hcc⟩ := mem_of_ne_nil_head (shaped h0 hmem).ne_nil
          have hhead : cc = '#' := by
            have := (shaped h0 hmem).head_hash
            rw [hcc] at this
            simpa using this
          refine Or.inr ⟨cc, tt ++ v, ?_, ?_⟩
          · rw [List.nil_append, hcc]
            simp
          · rw [hhead]
            exact hash_not_tag
        · exact Or.inr ⟨c, t ++ (h0 ++ v), by simp, hct⟩
termination_by w => w.length
decreasing_by
  exact stripOnce_length_lt hs

theorem clean_label_decomp (l : List Char) :
    ∃ pre post, l = pre ++ (extract_hashtags l).2 ++ post ∧ PostOk post := by
  rw [extract_hashtags_label]
  exact normalize_decomp shape_hashSetL l

/-- Scanning the cleaned label can produce no hashtag that ends it:
any such occurrence would have been a match of the original input
(its run is still maximal there, because cleaning cut the input in
front of a `#` or in front of whitespace), and the loop has already
stripped every trailing match of the input. -/
theorem clean_label_no_new_suffix (l : List Char) :
    ∀ x ∈ hashSetL ((extract_hashtags l).2), ¬ x <:+ (extract_hashtags l).2 := by
  intro x hx hsuf
  have hshape : TagShaped x := shape_hashSetL x hx
  obtain ⟨c, r, rfl, hc, hr⟩ := hshape
  obtain ⟨L0, hL0⟩ := hsuf
  obtain ⟨pre, post, hdec, hpost⟩ := clean_label_decomp l
  have hform : l = (pre ++ L0) ++ ('#' :: c :: r) ++ post := by
    rw [hdec, ← hL0]
    simp [List.append_assoc]
  have hmem : ('#' :: c :: r) ∈ scanTags l := by
    rw [hform]
    exact scan_complete hc l.length (pre ++ L0) r post
      (by rw [← hform]) hr hpost
  have : ('#' :: c :: r) ∈ hashSetL l := List.mem_dedup.mpr hmem
  exact clean_label_no_tag_suffix l _ this (by rw [← hL0]; exact ⟨L0, rfl⟩)

/-- Re-extracting hashtags from an already-cleaned label returns the
label unchanged. -/
theorem clean_label_idem (l : List Char) :
    (extract_hashtags ((extract_hashtags l).2)).2 = (extract_hashtags l).2 := by
  rw [extract_hashtags_label ((extract_hashtags l).2)]
  have hnone : stripOnce (hashSetL ((extract_hashtags l).2))
      (trimBoth ((extract_hashtags l).2)) = none := by
    rw [clean_label_trimmed]
    exact stripOnce_shaped_none (clean_label_no_new_suffix l)
  rw [normalize_eq_none hnone, clean_label_trimmed]

/-! ## Remaining small helpers -/

theorem sorted_find?_min {p : List Char → Bool} :
    ∀ {L : List (List Char)}, List.Sorted lexLeP L → ∀ {a : List Char},
    L.find? p = some a → p a = true ∧ ∀ b ∈ L, p b = true → lexLe a b = true := by
  intro L
  induction L with
  | nil => intro _ a h; cases h
  | cons x xs ih =>
    intro hsort a hfind
    rw [List.find?_cons] at hfind
    have hx := (List.sorted_cons.mp hsort).1
    have hxs := (List.sorted_cons.mp hsort).2
    cases hpx : p x with
    | true =>
      rw [hpx] at hfind
      cases hfind
      refine ⟨hpx, ?_⟩
      intro b hb _
      rcases List.mem_cons.mp hb with rfl | hb'
      · exact lexLe_refl b
      · exact hx b hb'
    | false =>
      rw [hpx] at hfind
      obtain ⟨hpa, hmin⟩ := ih hxs hfind
      refine ⟨hpa, ?_⟩
      intro b hb hpb
      rcases List.mem_cons.mp hb with rfl | hb'
      · rw [hpx] at hpb; cases hpb
      · exact hmin b hb' hpb

theorem sortedHashes_nil_iff (x : List Char) : sortedHashes x = [] ↔ scanTags x = [] := by
  constructor
  · intro h
    have hp := List.perm_insertionSort lexLeP (hashSetL x)
    rw [sortedHashes] at h
    rw [h] at hp
    have : hashSetL x = [] := hp.symm.eq_nil
    rwa [hashSetL, List.dedup_eq_nil] at this
  · intro h
    rw [sortedHashes, hashSetL, h]
    rfl

theorem sortedHashes_isEmpty (x : List Char) :
    (sortedHashes x).isEmpty = (scanTags x).isEmpty := by
  by_cases h : scanTags x = []
  · rw [h, (sortedHashes_nil_iff x).mpr h]
  · have h2 : sortedHashes x ≠ [] := fun hh => h ((sortedHashes_nil_iff x).mp hh)
    cases hE1 : sortedHashes x with
    | nil => exact absurd hE1 h2
    | cons a t =>
      cases hE2 : scanTags x with
      | nil => exact absurd hE2 h
      | cons b s => rfl

theorem trimBoth_eq_or_lt (w : List Char) :
    trimBoth w = w ∨ (trimBoth w).length < w.length := by
  obtain ⟨u, v, he, _, _⟩ := trimBoth_suffix_pref w
  rcases u with _ | ⟨a, t⟩
  · rcases v with _ | ⟨b, s⟩
    · left
      simp only [List.nil_append, List.append_nil] at he
      exact he.symm
    · right
      have := congrArg List.length he
      simp only [List.length_append, List.length_cons, List.nil_append] at this
      omega
  · right
    have := congrArg List.length he
    simp only [List.length_append, List.length_cons] at this
    omega

theorem pass_shortens_or_stops {l : List Char} (w : List Char) :
    (pass (sortedHashes l) w).1.length < w.length ∨
      ((pass (sortedHashes l) w).1 = w ∧ (pass (sortedHashes l) w).2 = false) := by
  cases hr : (pass (sortedHashes l) w).2 with
  | true =>
    exact Or.inl (pass_length_lt shape_hashSetL
      (fun x hx => mem_sortedHashes_iff.mp hx) hr)
  | false =>
    obtain ⟨he, -⟩ := pass_eq_of_false hr
    rcases trimBoth_eq_or_lt w with heq | hlt
    · exact Or.inr ⟨by rw [he, heq], rfl⟩
    · exact Or.inl (by rw [he]; exact hlt)

/-! ## The claims -/

/-- C1: for the input label `"a #hashtag at the #end"`, `NodeInfo.parse`
returns the label `"a #hashtag at the"`, the tags `#end` and `#hashtag`
in sorted (lexicographic) order, no subgraph, and no variables. -/
theorem C1_trailing_chain :
    NodeInfo.parse "a #hashtag at the #end".data =
      { label := "a #hashtag at the".data,
        tags := ["#end".data, "#hashtag".data],
        vars := [],
        subgraph := none } := by rfl

/-- C2: for every input label, no tag of the parsed `NodeInfo` starts
with `#SG_`, and the subgraph, when present, starts with `#SG_`. -/
theorem C2_subgraph_invariant (l : List Char) :
    ((NodeInfo.parse l).tags.all fun t => !isSG t) = true ∧
      ((NodeInfo.parse l).subgraph.all isSG) = true := by
  constructor
  · show (((extract_hashtags l).1.filter fun t => !isSG t).all fun t => !isSG t) = true
    rw [List.all_eq_true]
    intro t ht
    exact (List.mem_filter.mp ht).2
  · show (((extract_hashtags l).1.find? isSG).all isSG) = true
    cases hf : (extract_hashtags l).1.find? isSG with
    | none => rfl
    | some a =>
      show isSG a = true
      exact List.find?_some hf

/-- C3: two runs of `NodeInfo::parse` on the same input — modelled as
two arbitrary `HashSet` iteration orders for the hashtag trim loop and
for the variable set — produce byte-identical labels and tag
sequences, and variable sequences containing exactly the same
variables. -/
theorem C3_determinism (l : List Char) (O₁ O₂ : List (List Char)) (V₁ V₂ : List Variable)
    (hO₁ : O₁.Perm (hashSetL l)) (hO₂ : O₂.Perm (hashSetL l))
    (hV₁ : V₁.Perm (extract_variables ((extract_hashtags l).2)).1)
    (hV₂ : V₂.Perm (extract_variables ((extract_hashtags l).2)).1) :
    (parseWith O₁ V₁ l).label = (parseWith O₂ V₂ l).label ∧
    (parseWith O₁ V₁ l).tags = (parseWith O₂ V₂ l).tags ∧
    ∀ v, v ∈ (parseWith O₁ V₁ l).vars ↔ v ∈ (parseWith O₂ V₂ l).vars := by
  refine ⟨?_, rfl, ?_⟩
  · rw [parseWith_label hO₁, parseWith_label hO₂]
  · intro v
    exact hV₁.mem_iff.trans hV₂.mem_iff.symm

theorem C3_determinism_witness :
    (["#x".data, "#y".data].Perm (hashSetL "a #x #y".data) ∧
      ["#y".data, "#x".data].Perm (hashSetL "a #x #y".data) ∧
      List.Perm [] (extract_variables ((extract_hashtags "a #x #y".data).2)).1) ∧
    ((parseWith ["#x".data, "#y".data] [] "a #x #y".data).label =
        (parseWith ["#y".data, "#x".data] [] "a #x #y".data).label ∧
      (parseWith ["#x".data, "#y".data] [] "a #x #y".data).tags =
        (parseWith ["#y".data, "#x".data] [] "a #x #y".data).tags ∧
      ∀ v, v ∈ (parseWith ["#x".data, "#y".data] [] "a #x #y".data).vars ↔
        v ∈ (parseWith ["#y".data, "#x".data] [] "a #x #y".data).vars) :=
  ⟨⟨by decide, by decide, by decide⟩,
    C3_determinism "a #x #y".data _ _ [] [] (by decide) (by decide) (by decide) (by decide)⟩

/-- C4: variable extraction returns the input text unchanged — the
text component of `extract_variables text` is `text` itself, so
`$name=value` tokens are never removed from the label string. -/
theorem C4_variables_frame (l : List Char) : (extract_variables l).2 = l := rfl

/-- C5: type inference on a raw variable-value token tries Boolean,
then Time, then Number, then String (first match wins, the order being
the structure of `VariableValue.infer`); in particular `"John"` is a
String, `"25"` the Number 25, `"true"` the Boolean true, and `"4d"`,
`"4m"`, `"4M"`, `"4y"` the Times Day 4, Minute 4, Month 4, Year 4. -/
theorem C5_type_inference :
    VariableValue.infer "John".data = .string "John".data ∧
    VariableValue.infer "25".data = .number 25 ∧
    VariableValue.infer "true".data = .boolean true ∧
    VariableValue.infer "false".data = .boolean false ∧
    VariableValue.infer "4d".data = .time (.Day 4) ∧
    VariableValue.infer "4m".data = .time (.Minute 4) ∧
    VariableValue.infer "4M".data = .time (.Month 4) ∧
    VariableValue.infer "4y".data = .time (.Year 4) :=
  ⟨rfl, rfl, rfl, rfl, rfl, rfl, rfl, rfl⟩

/-- C6: parsing `"$x=1 $x=1"` yields exactly one variable
`x = Number 1`; parsing `"$x=1 $x=2"` yields exactly two distinct
variables, both named `x` — deduplication is by the full
`(name, value)` pair, not by name. -/
theorem C6_variable_dedup :
    (NodeInfo.parse "$x=1 $x=1".data).vars = [⟨"x".data, .number 1⟩] ∧
    ((NodeInfo.parse "$x=1 $x=2".data).vars.length = 2 ∧
      (⟨"x".data, .number 1⟩ : Variable) ∈ (NodeInfo.parse "$x=1 $x=2".data).vars ∧
      (⟨"x".data, .number 2⟩ : Variable) ∈ (NodeInfo.parse "$x=1 $x=2".data).vars ∧
      ∀ v ∈ (NodeInfo.parse "$x=1 $x=2".data).vars, v.name = "x".data) := by
  decide

/-- C7 (counterexample): the label `"a #hashtag in the middle"` is
already cleaned (it is the cleaned output of `extract_hashtags` on
itself), yet re-extracting hashtags from it does not yield an empty
tag set together with an unchanged label: the mid-text `#hashtag` is
still reported as a tag. -/
theorem C7_counterexample :
    ¬ ((extract_hashtags ((extract_hashtags "a #hashtag in the middle".data).2)).1 = [] ∧
       (extract_hashtags ((extract_hashtags "a #hashtag in the middle".data).2)).2 =
         (extract_hashtags "a #hashtag in the middle".data).2) := by
  decide

/-- C7 (amended): re-extracting hashtags from an already-cleaned label
yields the label unchanged, and its tag set is empty exactly when the
cleaned label contains no hashtag token (a mid-text hashtag of the
cleaned label is still reported). -/
theorem C7_idempotent_label (l : List Char) :
    (extract_hashtags ((extract_hashtags l).2)).2 = (extract_hashtags l).2 ∧
    ((extract_hashtags ((extract_hashtags l).2)).1.isEmpty =
      (scanTags ((extract_hashtags l).2)).isEmpty) :=
  ⟨clean_label_idem l, sortedHashes_isEmpty _⟩

/-- C8: `NodeInfo::parse` is total.  `parseChecked` makes the code's
partial operations explicit — the `while work_done` loop could fail to
terminate (fuel) and the suffix slice could fall outside the string —
and for every input, the empty string and malformed or out-of-class
text included, it returns `some` and agrees with `parse`. -/
theorem C8_parse_total (l : List Char) :
    NodeInfo.parseChecked l = some (NodeInfo.parse l) := by
  show (Option.map _ (loopAuxChecked (l.length + 1) (sortedHashes l) l)).map _ =
    some (NodeInfo.parse l)
  rw [loopAuxChecked_eq shape_hashSetL (fun _ => mem_sortedHashes_iff)
    (l.length + 1) l (by omega)]
  rfl

/-- C9: when the tag set holds at least two `#SG_` hashtags, the
subgraph is deterministically the lexicographically smallest of them
(the tag list is sorted before the find-first), and every `#SG_`
hashtag is absent from the ordinary tags. -/
theorem C9_subgraph_min (l : List Char)
    (h2 : 2 ≤ ((extract_hashtags l).1.filter isSG).length) :
    ∃ m, (NodeInfo.parse l).subgraph = some m ∧ isSG m = true ∧
      (∀ t ∈ (extract_hashtags l).1, isSG t = true → lexLe m t = true) ∧
      (∀ t, isSG t = true → t ∉ (NodeInfo.parse l).tags) := by
  have hsorted : List.Sorted lexLeP (sortedHashes l) :=
    List.sorted_insertionSort lexLeP (hashSetL l)
  have hex : ∃ t ∈ sortedHashes l, isSG t = true := by
    have hpos : 0 < ((sortedHashes l).filter isSG).length := by
      exact lt_of_lt_of_le (by omega) h2
    obtain ⟨t, ht⟩ := List.exists_mem_of_length_pos hpos
    exact ⟨t, (List.mem_filter.mp ht).1, (List.mem_filter.mp ht).2⟩
  have hsome : ((sortedHashes l).find? isSG).isSome = true :=
    List.find?_isSome.mpr hex
  obtain ⟨m, hm⟩ := Option.isSome_iff_exists.mp hsome
  obtain ⟨hpm, hmin⟩ := sorted_find?_min hsorted hm
  refine ⟨m, ?_, hpm, ?_, ?_⟩
  · exact hm
  · exact hmin
  · intro t hsg hmem
    have := (List.mem_filter.mp hmem).2
    rw [hsg] at this
    exact absurd this (by simp)

theorem C9_subgraph_min_witness :
    2 ≤ ((extract_hashtags "x #SG_B #SG_A".data).1.filter isSG).length ∧
    ∃ m, (NodeInfo.parse "x #SG_B #SG_A".data).subgraph = some m ∧ isSG m = true ∧
      (∀ t ∈ (extract_hashtags "x #SG_B #SG_A".data).1, isSG t = true →
        lexLe m t = true) ∧
      (∀ t, isSG t = true → t ∉ (NodeInfo.parse "x #SG_B #SG_A".data).tags) :=
  ⟨by decide, C9_subgraph_min "x #SG_B #SG_A".data (by decide)⟩

/-- C10: the trailing-trim fixed-point loop terminates on every input:
each pass either removes no characters, in which case it reports no
work and the loop ends, or strictly shortens the working string; the
loop's budget of `length + 1` passes reaches a fixed point (a further
pass changes nothing and reports no work); and the cleaned label is a
prefix of the whitespace-trimmed input. -/
theorem C10_loop_termination (l : List Char) :
    (∀ w : List Char, (pass (sortedHashes l) w).1.length < w.length ∨
      ((pass (sortedHashes l) w).1 = w ∧ (pass (sortedHashes l) w).2 = false)) ∧
    pass (sortedHashes l) ((extract_hashtags l).2) = ((extract_hashtags l).2, false) ∧
    (extract_hashtags l).2 <+: trimBoth l := by
  refine ⟨fun w => pass_shortens_or_stops w, ?_, ?_⟩
  · exact pass_at_clean fun x hx => mem_sortedHashes_iff.mp hx
  · rw [extract_hashtags_label]
    exact normalize_pref l

end Microdot
